import Mathlib

/-!
Verification of the incremental input layer (`BufferQueue`) of the html5
tokenizer, `src/tokenizer/buffer_queue.rs`.

The source stores owned UTF-8 strings (`~str`) and tracks a byte cursor
(`pos`) into each buffer, so we model text as lists of bytes (`List Nat`)
and characters as Unicode scalar values (`Nat`).  The source's `uint`
arithmetic wraps on overflow; we use `Nat` with truncated subtraction, and
every statement below either establishes that no underflow occurs on the
execution considered, or concerns values that subtraction of the
`available` counter does not influence.
-/

/-- A Unicode scalar value, the values inhabiting the source language's
character type. -/
def IsScalar (c : Nat) : Prop := c < 0xD800 ∨ (0xE000 ≤ c ∧ c < 0x110000)

instance (c : Nat) : Decidable (IsScalar c) := by
  unfold IsScalar; infer_instance

/-- UTF-8 encoding of one scalar value, as the source language's string type
stores it. -/
def encodeChar (c : Nat) : List Nat :=
  if c < 0x80 then [c]
  else if c < 0x800 then [0xC0 + c / 0x40, 0x80 + c % 0x40]
  else if c < 0x10000 then
    [0xE0 + c / 0x1000, 0x80 + c / 0x40 % 0x40, 0x80 + c % 0x40]
  else
    [0xF0 + c / 0x40000, 0x80 + c / 0x1000 % 0x40, 0x80 + c / 0x40 % 0x40,
     0x80 + c % 0x40]

/-- UTF-8 encoding of a sequence of scalar values. -/
def encodeStr (cs : List Nat) : List Nat := (cs.map encodeChar).flatten

/-- A UTF-8 continuation byte. -/
def isCont (b : Nat) : Bool := decide (0x80 ≤ b) && decide (b < 0xC0)

/-- Decode the code point at the head of a byte list, returning it together
with the number of bytes it occupies.  This models the source's
`char_range_at` decoding; `none` is the out-of-range / invalid branch. -/
def decodeChar : List Nat → Option (Nat × Nat)
  | [] => none
  | b :: rest =>
    if b < 0x80 then some (b, 1)
    else if b < 0xC0 then none
    else if b < 0xE0 then
      match rest with
      | b1 :: _ =>
        if isCont b1 then some ((b - 0xC0) * 0x40 + (b1 - 0x80), 2) else none
      | [] => none
    else if b < 0xF0 then
      match rest with
      | b1 :: b2 :: _ =>
        if isCont b1 && isCont b2 then
          some ((b - 0xE0) * 0x1000 + (b1 - 0x80) * 0x40 + (b2 - 0x80), 3)
        else none
      | _ => none
    else if b < 0xF8 then
      match rest with
      | b1 :: b2 :: b3 :: _ =>
        if isCont b1 && isCont b2 && isCont b3 then
          some ((b - 0xF0) * 0x40000 + (b1 - 0x80) * 0x1000 +
                (b2 - 0x80) * 0x40 + (b3 - 0x80), 4)
        else none
      | _ => none
    else none

/-- Number of code points in a valid UTF-8 byte list, counted as the source's
`char_len` does (one character per non-continuation byte). -/
def char_len (bs : List Nat) : Nat := (bs.filter (fun b => ! isCont b)).length

/-- The five byte values that terminate a data run: NUL, CR, ampersand,
hyphen, less-than. -/
def is_trigger_byte (b : Nat) : Bool :=
  b == 0x00 || b == 0x0D || b == 0x26 || b == 0x2D || b == 0x3C

/-- Count the number of data bytes at the beginning of `s`; translation of
the source's `data_span` loop, which breaks at the first trigger byte. -/
def data_span : List Nat → Nat
  | [] => 0
  | b :: rest => if is_trigger_byte b then 0 else data_span rest + 1

/-- A chunk: an owned string buffer plus the byte position of its cursor.
Translation of the source's `Buffer` struct. -/
structure Buffer where
  pos : Nat
  buf : List Nat
deriving DecidableEq

/-- `Buffer::new`: a fresh chunk with the cursor at the start. -/
def Buffer.new (buf : List Nat) : Buffer := ⟨0, buf⟩

/-- The not-yet-consumed bytes of a chunk. -/
def Buffer.rest (b : Buffer) : List Nat := b.buf.drop b.pos

/-- `str::char_range_at`: the code point starting at byte offset `pos`
together with the offset just past it.  `none` models the out-of-range /
invalid branch, which panics in the source language. -/
def char_range_at (buf : List Nat) (pos : Nat) : Option (Nat × Nat) :=
  match decodeChar (buf.drop pos) with
  | some (ch, w) => some (ch, pos + w)
  | none => none

/-- Either a single character or a run of data characters; translation of
the source's `DataRunOrChar`. -/
inductive DataRunOrChar where
  | DataRun : List Nat → DataRunOrChar
  | OneChar : Nat → DataRunOrChar
deriving DecidableEq

/-- The bytes a `DataRunOrChar` stands for: a run carries its bytes, a
single character its UTF-8 encoding. -/
def renderDRC : DataRunOrChar → List Nat
  | DataRunOrChar.DataRun bs => bs
  | DataRunOrChar.OneChar c => encodeChar c

/-- The queue of owned string buffers; translation of `BufferQueue`.  The
doubly-linked `DList` is modelled as a `List` with its front at the head. -/
structure BufferQueue where
  buffers : List Buffer
  available : Nat
deriving DecidableEq

/-- `BufferQueue::new`. -/
def BufferQueue.new : BufferQueue := ⟨[], 0⟩

/-- All remaining unconsumed bytes across the queue's chunks, in order. -/
def BufferQueue.restBytes (q : BufferQueue) : List Nat :=
  (q.buffers.map Buffer.rest).flatten

/-- `BufferQueue::account_new`: credit `available` with the character count
of a newly pushed buffer. -/
def BufferQueue.account_new (q : BufferQueue) (buf : List Nat) : BufferQueue :=
  ⟨q.buffers, q.available + char_len buf⟩

/-- `BufferQueue::push_front`. -/
def BufferQueue.push_front (q : BufferQueue) (buf : List Nat) : BufferQueue :=
  ⟨Buffer.new buf :: (q.account_new buf).buffers, (q.account_new buf).available⟩

/-- `BufferQueue::push_back`. -/
def BufferQueue.push_back (q : BufferQueue) (buf : List Nat) : BufferQueue :=
  ⟨(q.account_new buf).buffers ++ [Buffer.new buf], (q.account_new buf).available⟩

/-- `BufferQueue::has`: at least `n` characters available, by the counter. -/
def BufferQueue.has (q : BufferQueue) (n : Nat) : Bool := decide (n ≤ q.available)

/-- `BufferQueue::drop_empty_buffers`: pop exhausted chunks off the front
until the front chunk has unread bytes or the queue is empty. -/
def drop_empty_buffers : List Buffer → List Buffer
  | [] => []
  | b :: rest => if b.buf.length ≤ b.pos then drop_empty_buffers rest else b :: rest

/-- The `Iterator` impl's `next`: prune exhausted chunks, then decode one
character at the front cursor and advance it.  The outer `none` is the
decode-failure branch, which panics in the source language; `some (none, q)`
is the source's `None` result on an empty queue. -/
def BufferQueue.next (q : BufferQueue) : Option (Option Nat × BufferQueue) :=
  match drop_empty_buffers q.buffers with
  | [] => some (none, ⟨[], q.available⟩)
  | b :: rest =>
    match char_range_at b.buf b.pos with
    | some (ch, nxt) => some (some ch, ⟨⟨nxt, b.buf⟩ :: rest, q.available - 1⟩)
    | none => none

/-- `BufferQueue::peek`: prune exhausted chunks, then decode the character
at the front cursor without advancing. -/
def BufferQueue.peek (q : BufferQueue) : Option (Option Nat × BufferQueue) :=
  match drop_empty_buffers q.buffers with
  | [] => some (none, ⟨[], q.available⟩)
  | b :: rest =>
    match char_range_at b.buf b.pos with
    | some (ch, _) => some (some ch, ⟨b :: rest, q.available⟩)
    | none => none

/-- `BufferQueue::pop_data`: prune exhausted chunks, classify the front
chunk's remaining text; a run of more than one byte is sliced out whole,
otherwise a single character is decoded.  Note the source subtracts the
*byte* length `n` of the run from `available`. -/
def BufferQueue.pop_data (q : BufferQueue) : Option (Option DataRunOrChar × BufferQueue) :=
  match drop_empty_buffers q.buffers with
  | [] => some (none, ⟨[], q.available⟩)
  | b :: rest =>
    let n := data_span (b.buf.drop b.pos)
    if 1 < n then
      some (some (DataRunOrChar.DataRun ((b.buf.drop b.pos).take n)),
        ⟨⟨b.pos + n, b.buf⟩ :: rest, q.available - n⟩)
    else
      match char_range_at b.buf b.pos with
      | some (ch, nxt) =>
        some (some (DataRunOrChar.OneChar ch), ⟨⟨nxt, b.buf⟩ :: rest, q.available - 1⟩)
      | none => none

/-- `self.by_ref().take(n).collect()`: call `next` up to `n` times,
collecting the yielded characters; stops early if the iterator reports
empty.  The outer `none` propagates the decode-panic branch. -/
def collect_take : Nat → BufferQueue → Option (List Nat × BufferQueue)
  | 0, q => some ([], q)
  | n + 1, q =>
    match q.next with
    | some (some ch, q1) =>
      match collect_take n q1 with
      | some (cs, q2) => some (ch :: cs, q2)
      | none => none
    | some (none, q1) => some ([], q1)
    | none => none

/-- `BufferQueue::pop_front`: all of the next `n` characters, if the counter
says that many are available. -/
def BufferQueue.pop_front (q : BufferQueue) (n : Nat) :
    Option (Option (List Nat) × BufferQueue) :=
  if q.has n then
    match collect_take n q with
    | some (cs, q1) => some (some cs, q1)
    | none => none
  else some (none, q)

/-- The chunk `b` has consumed an encoded prefix and still holds the
encoding of the scalar values `cs`: its cursor sits exactly on the boundary
between the two.  This is the per-chunk well-formedness relation tying the
byte-level state to the character-level view. -/
def BufAbs (b : Buffer) (cs : List Nat) : Prop :=
  ∃ cs0, (∀ c ∈ cs0, IsScalar c) ∧ (∀ c ∈ cs, IsScalar c) ∧
    b.buf = encodeStr cs0 ++ encodeStr cs ∧ b.pos = (encodeStr cs0).length

/-- The queue's chunks are well formed and jointly hold the encoding of the
scalar values `cs`: the character-level view of a reachable queue state. -/
def QWf (q : BufferQueue) (cs : List Nat) : Prop :=
  ∃ css, List.Forall₂ BufAbs q.buffers css ∧ cs = css.flatten

/-- `QWf` plus intact availability accounting.  (The accounting is an
invariant of every operation except `pop_data`, which over-decrements on
multi-byte data runs; see the theorems on claim C1.) -/
def QAcct (q : BufferQueue) (cs : List Nat) : Prop :=
  QWf q cs ∧ q.available = cs.length

/-- Repeatedly call `next` until it reports empty, collecting the
characters; `fuel` bounds the number of characters taken. -/
def drain_next : Nat → BufferQueue → Option (List Nat)
  | 0, q =>
    match q.next with
    | some (none, _) => some []
    | _ => none
  | fuel + 1, q =>
    match q.next with
    | some (none, _) => some []
    | some (some c, q1) =>
      match drain_next fuel q1 with
      | some l => some (c :: l)
      | none => none
    | none => none

/-- Repeatedly call `pop_data` until it reports empty, collecting the
classified outputs; `fuel` bounds the number of calls. -/
def drain_pop_data : Nat → BufferQueue → Option (List DataRunOrChar)
  | 0, q =>
    match q.pop_data with
    | some (none, _) => some []
    | _ => none
  | fuel + 1, q =>
    match q.pop_data with
    | some (none, _) => some []
    | some (some out, q1) =>
      match drain_pop_data fuel q1 with
      | some l => some (out :: l)
      | none => none
    | none => none

/-- The chunk's cursor lies on a UTF-8 code-point boundary: the bytes before
it and the bytes after it are each a valid encoding of scalar values. -/
def PosOnBoundary (b : Buffer) : Prop :=
  ∃ cs0 cs1, (∀ c ∈ cs0, IsScalar c) ∧ (∀ c ∈ cs1, IsScalar c) ∧
    b.buf = encodeStr cs0 ++ encodeStr cs1 ∧ b.pos = (encodeStr cs0).length

theorem IsScalar.lt_max {c : Nat} (h : IsScalar c) : c < 0x110000 := by
  rcases h with h | h <;> omega

theorem encodeStr_nil : encodeStr [] = [] := rfl

theorem encodeStr_cons (c : Nat) (cs : List Nat) :
    encodeStr (c :: cs) = encodeChar c ++ encodeStr cs := by
  simp [encodeStr]

theorem encodeStr_append (cs ds : List Nat) :
    encodeStr (cs ++ ds) = encodeStr cs ++ encodeStr ds := by
  simp [encodeStr]

theorem encodeChar_ne_nil (c : Nat) : encodeChar c ≠ [] := by
  unfold encodeChar
  split <;> [skip; split] <;> [simp; simp; split <;> simp]

theorem encodeChar_length_pos (c : Nat) : 0 < (encodeChar c).length :=
  List.length_pos.mpr (encodeChar_ne_nil c)

theorem encodeStr_eq_nil_iff (cs : List Nat) : encodeStr cs = [] ↔ cs = [] := by
  cases cs with
  | nil => simp [encodeStr]
  | cons c cs =>
    rw [encodeStr_cons]
    simp [encodeChar_ne_nil]

/-- Decoding after encoding recovers the scalar value and its byte length,
whatever bytes follow. -/
theorem decodeChar_encodeChar (c : Nat) (h : c < 0x110000) (bs : List Nat) :
    decodeChar (encodeChar c ++ bs) = some (c, (encodeChar c).length) := by
  by_cases h1 : c < 0x80
  · simp [encodeChar, decodeChar, h1]
  · by_cases h2 : c < 0x800
    · have e1 : ¬ (0xC0 + c / 0x40 < 0x80) := by omega
      have e2 : ¬ (0xC0 + c / 0x40 < 0xC0) := by omega
      have e3 : 0xC0 + c / 0x40 < 0xE0 := by omega
      have e4 : isCont (0x80 + c % 0x40) = true := by
        simp only [isCont, Bool.and_eq_true, decide_eq_true_eq]
        omega
      simp [encodeChar, decodeChar, h1, h2, e1, e2, e3, e4]
      omega
    · by_cases h3 : c < 0x10000
      · have e1 : ¬ (0xE0 + c / 0x1000 < 0x80) := by omega
        have e2 : ¬ (0xE0 + c / 0x1000 < 0xC0) := by omega
        have e3 : ¬ (0xE0 + c / 0x1000 < 0xE0) := by omega
        have e4 : 0xE0 + c / 0x1000 < 0xF0 := by omega
        have e5 : isCont (0x80 + c / 0x40 % 0x40) = true := by
          simp only [isCont, Bool.and_eq_true, decide_eq_true_eq]
          omega
        have e6 : isCont (0x80 + c % 0x40) = true := by
          simp only [isCont, Bool.and_eq_true, decide_eq_true_eq]
          omega
        simp [encodeChar, decodeChar, h1, h2, h3, e1, e2, e3, e4, e5, e6]
        omega
      · have e1 : ¬ (0xF0 + c / 0x40000 < 0x80) := by omega
        have e2 : ¬ (0xF0 + c / 0x40000 < 0xC0) := by omega
        have e3 : ¬ (0xF0 + c / 0x40000 < 0xE0) := by omega
        have e4 : ¬ (0xF0 + c / 0x40000 < 0xF0) := by omega
        have e5 : 0xF0 + c / 0x40000 < 0xF8 := by omega
        have e6 : isCont (0x80 + c / 0x1000 % 0x40) = true := by
          simp only [isCont, Bool.and_eq_true, decide_eq_true_eq]
          omega
        have e7 : isCont (0x80 + c / 0x40 % 0x40) = true := by
          simp only [isCont, Bool.and_eq_true, decide_eq_true_eq]
          omega
        have e8 : isCont (0x80 + c % 0x40) = true := by
          simp only [isCont, Bool.and_eq_true, decide_eq_true_eq]
          omega
        simp [encodeChar, decodeChar, h1, h2, h3, e1, e2, e3, e4, e5, e6, e7, e8]
        omega

theorem char_len_append (xs ys : List Nat) :
    char_len (xs ++ ys) = char_len xs + char_len ys := by
  simp [char_len]

theorem char_len_encodeChar (c : Nat) (h : c < 0x110000) :
    char_len (encodeChar c) = 1 := by
  by_cases h1 : c < 0x80
  · have e0 : isCont c = false := by
      simp only [isCont, Bool.and_eq_false_iff, decide_eq_false_iff_not]
      omega
    simp [encodeChar, char_len, h1, e0]
  · by_cases h2 : c < 0x800
    · have e0 : isCont (0xC0 + c / 0x40) = false := by
        simp only [isCont, Bool.and_eq_false_iff, decide_eq_false_iff_not]
        omega
      have e1 : isCont (0x80 + c % 0x40) = true := by
        simp only [isCont, Bool.and_eq_true, decide_eq_true_eq]
        omega
      simp [encodeChar, char_len, h1, h2, e0, e1]
    · by_cases h3 : c < 0x10000
      · have e0 : isCont (0xE0 + c / 0x1000) = false := by
          simp only [isCont, Bool.and_eq_false_iff, decide_eq_false_iff_not]
          omega
        have e1 : isCont (0x80 + c / 0x40 % 0x40) = true := by
          simp only [isCont, Bool.and_eq_true, decide_eq_true_eq]
          omega
        have e2 : isCont (0x80 + c % 0x40) = true := by
          simp only [isCont, Bool.and_eq_true, decide_eq_true_eq]
          omega
        simp [encodeChar, char_len, h1, h2, h3, e0, e1, e2]
      · have e0 : isCont (0xF0 + c / 0x40000) = false := by
          simp only [isCont, Bool.and_eq_false_iff, decide_eq_false_iff_not]
          omega
        have e1 : isCont (0x80 + c / 0x1000 % 0x40) = true := by
          simp only [isCont, Bool.and_eq_true, decide_eq_true_eq]
          omega
        have e2 : isCont (0x80 + c / 0x40 % 0x40) = true := by
          simp only [isCont, Bool.and_eq_true, decide_eq_true_eq]
          omega
        have e3 : isCont (0x80 + c % 0x40) = true := by
          simp only [isCont, Bool.and_eq_true, decide_eq_true_eq]
          omega
        simp [encodeChar, char_len, h1, h2, h3, e0, e1, e2, e3]

theorem char_len_encodeStr (cs : List Nat) (h : ∀ c ∈ cs, IsScalar c) :
    char_len (encodeStr cs) = cs.length := by
  induction cs with
  | nil => simp [encodeStr, char_len]
  | cons c cs ih =>
    rw [encodeStr_cons, char_len_append,
      char_len_encodeChar c (IsScalar.lt_max (h c (by simp))),
      ih (fun d hd => h d (by simp [hd]))]
    simp [Nat.add_comm]

theorem is_trigger_byte_false_of_large (b : Nat) (h : 0x40 ≤ b) :
    is_trigger_byte b = false := by
  simp only [is_trigger_byte, Bool.or_eq_false_iff, beq_eq_false_iff_ne, ne_eq]
  omega

/-- A trigger byte is plain ASCII, hence encodes exactly itself. -/
theorem encodeChar_trigger (c : Nat) (h : is_trigger_byte c = true) :
    encodeChar c = [c] := by
  have hc : c < 0x80 := by
    simp only [is_trigger_byte, Bool.or_eq_true, beq_iff_eq] at h
    omega
  simp [encodeChar, hc]

/-- No byte in the encoding of a non-trigger scalar value is a trigger byte:
multi-byte encodings use only bytes at or above 0x80, and a one-byte encoding
is the character itself. -/
theorem encodeChar_no_trigger (c : Nat) (h : c < 0x110000)
    (hnt : is_trigger_byte c = false) :
    ∀ b ∈ encodeChar c, is_trigger_byte b = false := by
  intro b hb
  by_cases h1 : c < 0x80
  · simp [encodeChar, h1] at hb
    subst hb
    exact hnt
  · by_cases h2 : c < 0x800
    · simp [encodeChar, h1, h2] at hb
      rcases hb with hb | hb <;>
        exact hb ▸ is_trigger_byte_false_of_large _ (by omega)
    · by_cases h3 : c < 0x10000
      · simp [encodeChar, h1, h2, h3] at hb
        rcases hb with hb | hb | hb <;>
          exact hb ▸ is_trigger_byte_false_of_large _ (by omega)
      · simp [encodeChar, h1, h2, h3] at hb
        rcases hb with hb | hb | hb | hb <;>
          exact hb ▸ is_trigger_byte_false_of_large _ (by omega)

theorem encodeStr_no_trigger (cs : List Nat) (h : ∀ c ∈ cs, IsScalar c)
    (hnt : ∀ c ∈ cs, is_trigger_byte c = false) :
    ∀ b ∈ encodeStr cs, is_trigger_byte b = false := by
  induction cs with
  | nil => simp [encodeStr]
  | cons c cs ih =>
    intro b hb
    rw [encodeStr_cons] at hb
    rcases List.mem_append.mp hb with hb | hb
    · exact encodeChar_no_trigger c (IsScalar.lt_max (h c (by simp)))
        (hnt c (by simp)) b hb
    · exact ih (fun d hd => h d (by simp [hd]))
        (fun d hd => hnt d (by simp [hd])) b hb

theorem data_span_cons_trigger (b : Nat) (bs : List Nat)
    (h : is_trigger_byte b = true) : data_span (b :: bs) = 0 := by
  simp [data_span, h]

theorem data_span_append_no_trigger (xs ys : List Nat)
    (h : ∀ b ∈ xs, is_trigger_byte b = false) :
    data_span (xs ++ ys) = xs.length + data_span ys := by
  induction xs with
  | nil => simp
  | cons x xs ih =>
    have hx : is_trigger_byte x = false := h x (by simp)
    simp only [List.cons_append, data_span, hx, Bool.false_eq_true, if_false,
      List.length_cons, List.append_eq]
    rw [ih (fun b hb => h b (by simp [hb]))]
    omega

/-- Within valid UTF-8, the byte-level scan of `data_span` stops exactly at
the encoding boundary of the first trigger character. -/
theorem data_span_encodeStr (cs : List Nat) (h : ∀ c ∈ cs, IsScalar c) :
    data_span (encodeStr cs) =
      (encodeStr (cs.takeWhile (fun c => ! is_trigger_byte c))).length := by
  induction cs with
  | nil => simp [encodeStr, data_span]
  | cons c cs ih =>
    by_cases hc : is_trigger_byte c
    · rw [encodeStr_cons, encodeChar_trigger c hc, List.cons_append,
        data_span_cons_trigger c _ hc]
      simp [List.takeWhile, hc, encodeStr]
    · have hc' : is_trigger_byte c = false := by simp [hc]
      rw [encodeStr_cons,
        data_span_append_no_trigger _ _
          (encodeChar_no_trigger c (IsScalar.lt_max (h c (by simp))) hc'),
        ih (fun d hd => h d (by simp [hd]))]
      simp [List.takeWhile, hc', encodeStr_cons]

theorem encodeStr_singleton (c : Nat) : encodeStr [c] = encodeChar c := by
  simp [encodeStr]

theorem BufAbs.scalars {b : Buffer} {cs : List Nat} (h : BufAbs b cs) :
    ∀ c ∈ cs, IsScalar c := h.choose_spec.2.1

theorem BufAbs.rest_eq {b : Buffer} {cs : List Nat} (h : BufAbs b cs) :
    b.rest = encodeStr cs := by
  obtain ⟨cs0, _, _, hbuf, hpos⟩ := h
  rw [Buffer.rest, hbuf, hpos, List.drop_left]

theorem BufAbs.exhausted_iff {b : Buffer} {cs : List Nat} (h : BufAbs b cs) :
    b.buf.length ≤ b.pos ↔ cs = [] := by
  obtain ⟨cs0, _, _, hbuf, hpos⟩ := h
  rw [hbuf, hpos, List.length_append]
  constructor
  · intro hle
    have : (encodeStr cs).length = 0 := by omega
    exact (encodeStr_eq_nil_iff cs).mp (List.length_eq_zero.mp this)
  · intro hcs
    subst hcs
    simp [encodeStr]

theorem forall₂_scalar : ∀ {bufs : List Buffer} {css : List (List Nat)},
    List.Forall₂ BufAbs bufs css → ∀ c ∈ css.flatten, IsScalar c := by
  intro bufs css h
  induction h with
  | nil => simp
  | cons hb _ ih =>
    intro c hc
    rw [List.flatten_cons] at hc
    rcases List.mem_append.mp hc with hc | hc
    · exact hb.scalars c hc
    · exact ih c hc

theorem QWf.mem_scalar {q : BufferQueue} {cs : List Nat} (h : QWf q cs) :
    ∀ c ∈ cs, IsScalar c := by
  obtain ⟨css, hf, hcs⟩ := h
  subst hcs
  exact forall₂_scalar hf

theorem forall₂_rest_flatten : ∀ {bufs : List Buffer} {css : List (List Nat)},
    List.Forall₂ BufAbs bufs css →
    (bufs.map Buffer.rest).flatten = encodeStr css.flatten := by
  intro bufs css h
  induction h with
  | nil => simp [encodeStr]
  | cons hb _ ih =>
    rw [List.map_cons, List.flatten_cons, List.flatten_cons, encodeStr_append,
      ih, hb.rest_eq]

theorem QWf.restBytes_eq {q : BufferQueue} {cs : List Nat} (h : QWf q cs) :
    q.restBytes = encodeStr cs := by
  obtain ⟨css, hf, hcs⟩ := h
  subst hcs
  exact forall₂_rest_flatten hf

/-- Effect of the exhausted-chunk pruning on the character-level view: the
pruned queue holds the same characters, and if it is nonempty then its front
chunk holds at least one character. -/
theorem drop_empty_abs : ∀ {bufs : List Buffer} {css : List (List Nat)},
    List.Forall₂ BufAbs bufs css →
    (drop_empty_buffers bufs = [] ∧ css.flatten = []) ∨
    (∃ b r c cr, drop_empty_buffers bufs = b :: r ∧ c ≠ [] ∧
      List.Forall₂ BufAbs (b :: r) (c :: cr) ∧
      (c :: cr).flatten = css.flatten) := by
  intro bufs css h
  induction h with
  | nil => exact Or.inl ⟨rfl, rfl⟩
  | @cons b c bufs css hb ht ih =>
    by_cases hex : b.buf.length ≤ b.pos
    · have hc : c = [] := hb.exhausted_iff.mp hex
      subst hc
      rcases ih with ⟨hde, hfl⟩ | ⟨b1, r, c1, cr, hde, hcne, hf2, hfl⟩
      · left
        refine ⟨?_, by simp [hfl]⟩
        simp [drop_empty_buffers, hex, hde]
      · right
        refine ⟨b1, r, c1, cr, ?_, hcne, hf2, by simp [hfl]⟩
        simp [drop_empty_buffers, hex, hde]
    · right
      have hcne : c ≠ [] := by
        intro hc
        exact hex (hb.exhausted_iff.mpr hc)
      refine ⟨b, bufs, c, css, ?_, hcne, List.Forall₂.cons hb ht, rfl⟩
      simp [drop_empty_buffers, hex]

/-- A well-formed front chunk decodes its first remaining character. -/
theorem front_char_range {b : Buffer} {c0 : Nat} {ct : List Nat}
    (hb : BufAbs b (c0 :: ct)) :
    char_range_at b.buf b.pos = some (c0, b.pos + (encodeChar c0).length) := by
  have hscal : IsScalar c0 := hb.scalars c0 (by simp)
  have hdrop : b.buf.drop b.pos = encodeChar c0 ++ encodeStr ct := by
    have := hb.rest_eq
    rw [Buffer.rest] at this
    rw [this, encodeStr_cons]
  unfold char_range_at
  rw [hdrop, decodeChar_encodeChar c0 hscal.lt_max]

/-- Advancing the front chunk's cursor past its first remaining character
keeps it well formed over the remaining tail. -/
theorem BufAbs.advance {b : Buffer} {c0 : Nat} {ct : List Nat}
    (hb : BufAbs b (c0 :: ct)) :
    BufAbs ⟨b.pos + (encodeChar c0).length, b.buf⟩ ct := by
  obtain ⟨cs0, hs0, hs, hbuf, hpos⟩ := hb
  refine ⟨cs0 ++ [c0], ?_, fun c hc => hs c (by simp [hc]), ?_, ?_⟩
  · intro c hc
    rcases List.mem_append.mp hc with hc | hc
    · exact hs0 c hc
    · simp at hc
      subst hc
      exact hs c (by simp)
  · show b.buf = _
    rw [hbuf, encodeStr_cons, encodeStr_append, encodeStr_singleton,
      List.append_assoc]
  · show b.pos + _ = _
    rw [hpos, encodeStr_append, encodeStr_singleton, List.length_append]

/-- Character-level description of `next`: on an empty view it reports
`none`, otherwise it yields the first remaining character, decrements the
counter by one, and leaves a well-formed queue holding the tail. -/
theorem next_lemma {q : BufferQueue} {cs : List Nat} (h : QWf q cs) :
    (cs = [] ∧ q.next = some (none, ⟨[], q.available⟩)) ∨
    (∃ c cr q1, cs = c :: cr ∧ q.next = some (some c, q1) ∧ QWf q1 cr ∧
      q1.available = q.available - 1) := by
  obtain ⟨css, hf, hcs⟩ := h
  rcases drop_empty_abs hf with ⟨hde, hfl⟩ | ⟨b, r, c, cr, hde, hcne, hf2, hfl⟩
  · left
    refine ⟨by rw [hcs, ← hfl], ?_⟩
    unfold BufferQueue.next
    rw [hde]
  · right
    rcases List.exists_cons_of_ne_nil hcne with ⟨c0, ct, rfl⟩
    have hb : BufAbs b (c0 :: ct) := by
      cases hf2
      assumption
    have htail : List.Forall₂ BufAbs r cr := by
      cases hf2
      assumption
    refine ⟨c0, ct ++ cr.flatten,
      ⟨⟨b.pos + (encodeChar c0).length, b.buf⟩ :: r, q.available - 1⟩,
      ?_, ?_, ?_, rfl⟩
    · rw [hcs, ← hfl]
      simp
    · unfold BufferQueue.next
      rw [hde]
      simp only [front_char_range hb]
    · exact ⟨ct :: cr, List.Forall₂.cons hb.advance htail, by simp⟩

/-- Character-level description of `peek`: it reports the first remaining
character without consuming, pruning exhausted chunks only. -/
theorem peek_lemma {q : BufferQueue} {cs : List Nat} (h : QWf q cs) :
    (cs = [] ∧ q.peek = some (none, ⟨[], q.available⟩)) ∨
    (∃ c cr q1, cs = c :: cr ∧ q.peek = some (some c, q1) ∧ QWf q1 cs ∧
      q1.available = q.available) := by
  obtain ⟨css, hf, hcs⟩ := h
  rcases drop_empty_abs hf with ⟨hde, hfl⟩ | ⟨b, r, c, cr, hde, hcne, hf2, hfl⟩
  · left
    refine ⟨by rw [hcs, ← hfl], ?_⟩
    unfold BufferQueue.peek
    rw [hde]
  · right
    rcases List.exists_cons_of_ne_nil hcne with ⟨c0, ct, rfl⟩
    have hb : BufAbs b (c0 :: ct) := by
      cases hf2
      assumption
    refine ⟨c0, ct ++ cr.flatten, ⟨b :: r, q.available⟩, ?_, ?_, ?_, rfl⟩
    · rw [hcs, ← hfl]
      simp
    · unfold BufferQueue.peek
      rw [hde]
      simp only [front_char_range hb]
    · refine ⟨(c0 :: ct) :: cr, hf2, ?_⟩
      rw [hcs, ← hfl]

/-- Advancing the front chunk's cursor past a whole encoded prefix keeps it
well formed over the remainder. -/
theorem BufAbs.advance_many {b : Buffer} {cs ds : List Nat}
    (hb : BufAbs b (cs ++ ds)) :
    BufAbs ⟨b.pos + (encodeStr cs).length, b.buf⟩ ds := by
  obtain ⟨cs0, hs0, hs, hbuf, hpos⟩ := hb
  refine ⟨cs0 ++ cs, ?_, fun c hc => hs c (List.mem_append.mpr (Or.inr hc)),
    ?_, ?_⟩
  · intro c hc
    rcases List.mem_append.mp hc with hc | hc
    · exact hs0 c hc
    · exact hs c (List.mem_append.mpr (Or.inl hc))
  · show b.buf = _
    rw [hbuf]
    simp [encodeStr_append, List.append_assoc]
  · show b.pos + _ = _
    rw [hpos, encodeStr_append, List.length_append]

/-- Character-level description of `pop_data`: on an empty view it reports
`none`; otherwise it consumes a nonempty prefix `ds` of the remaining
characters and returns a value standing for exactly the bytes of `ds`; a
returned run is trigger-free, and a returned single character is either a
trigger or a data character whose maximal run in the front chunk is exactly
one byte long. -/
theorem pop_data_lemma {q : BufferQueue} {cs : List Nat} (h : QWf q cs) :
    (cs = [] ∧ q.pop_data = some (none, ⟨[], q.available⟩)) ∨
    (∃ ds es out q1, cs = ds ++ es ∧ ds ≠ [] ∧
      q.pop_data = some (some out, q1) ∧ QWf q1 es ∧
      renderDRC out = encodeStr ds ∧
      (∀ bs, out = DataRunOrChar.DataRun bs →
        ∀ x ∈ bs, is_trigger_byte x = false) ∧
      (∀ ch, out = DataRunOrChar.OneChar ch →
        ds = [ch] ∧ (is_trigger_byte ch = true ∨
          (is_trigger_byte ch = false ∧
            ∃ b1 r1, drop_empty_buffers q.buffers = b1 :: r1 ∧
              data_span b1.rest = 1)))) := by
  obtain ⟨css, hf, hcs⟩ := h
  rcases drop_empty_abs hf with ⟨hde, hfl⟩ | ⟨b, r, c, cr, hde, hcne, hf2, hfl⟩
  · left
    refine ⟨by rw [hcs, ← hfl], ?_⟩
    unfold BufferQueue.pop_data
    rw [hde]
  · right
    rcases List.exists_cons_of_ne_nil hcne with ⟨c0, ct, rfl⟩
    have hb : BufAbs b (c0 :: ct) := by
      cases hf2
      assumption
    have htail : List.Forall₂ BufAbs r cr := by
      cases hf2
      assumption
    have hs := hb.scalars
    have hrest : b.buf.drop b.pos = encodeStr (c0 :: ct) := hb.rest_eq
    have hspan := data_span_encodeStr (c0 :: ct) hs
    by_cases hn : 1 < data_span (encodeStr (c0 :: ct))
    · obtain ⟨P, hP⟩ :
          ∃ P, (c0 :: ct).takeWhile (fun c => ! is_trigger_byte c) = P :=
        ⟨_, rfl⟩
      obtain ⟨S, hS⟩ :
          ∃ S, (c0 :: ct).dropWhile (fun c => ! is_trigger_byte c) = S :=
        ⟨_, rfl⟩
      have hPS : P ++ S = c0 :: ct := by
        rw [← hP, ← hS, List.takeWhile_append_dropWhile]
      rw [hP] at hspan
      have hPnt : ∀ x ∈ P, is_trigger_byte x = false := by
        intro x hx
        rw [← hP] at hx
        have := List.mem_takeWhile_imp hx
        simpa using this
      have hPscal : ∀ x ∈ P, IsScalar x := by
        intro x hx
        refine hs x ?_
        rw [← hPS]
        exact List.mem_append.mpr (Or.inl hx)
      have hSscal : ∀ x ∈ S, IsScalar x := by
        intro x hx
        refine hs x ?_
        rw [← hPS]
        exact List.mem_append.mpr (Or.inr hx)
      have htake : (encodeStr (c0 :: ct)).take (data_span (encodeStr (c0 :: ct)))
          = encodeStr P := by
        rw [hspan, ← hPS, encodeStr_append, List.take_left]
      have hPne : P ≠ [] := by
        intro hPnil
        rw [hPnil, encodeStr_nil] at hspan
        simp only [List.length_nil] at hspan
        omega
      have hadv : BufAbs ⟨b.pos + data_span (encodeStr (c0 :: ct)), b.buf⟩ S := by
        rw [hspan]
        have hb2 : BufAbs b (P ++ S) := by
          rw [hPS]
          exact hb
        exact hb2.advance_many
      refine ⟨P, S ++ cr.flatten, DataRunOrChar.DataRun (encodeStr P),
        ⟨⟨b.pos + data_span (encodeStr (c0 :: ct)), b.buf⟩ :: r,
          q.available - data_span (encodeStr (c0 :: ct))⟩,
        ?_, hPne, ?_, ?_, rfl, ?_, ?_⟩
      · rw [hcs, ← hfl]
        simp [← hPS, List.append_assoc]
      · unfold BufferQueue.pop_data
        rw [hde]
        simp only [hrest]
        rw [if_pos hn, htake]
      · exact ⟨S :: cr, List.Forall₂.cons hadv htail, by simp⟩
      · intro bs hbs
        injection hbs with hbs
        subst hbs
        exact encodeStr_no_trigger P hPscal hPnt
      · intro ch hch
        simp at hch
    · have hone : q.pop_data = some (some (DataRunOrChar.OneChar c0),
          ⟨⟨b.pos + (encodeChar c0).length, b.buf⟩ :: r, q.available - 1⟩) := by
        unfold BufferQueue.pop_data
        rw [hde]
        simp only [hrest]
        rw [if_neg hn]
        simp only [front_char_range hb]
      refine ⟨[c0], ct ++ cr.flatten, DataRunOrChar.OneChar c0,
        ⟨⟨b.pos + (encodeChar c0).length, b.buf⟩ :: r, q.available - 1⟩,
        ?_, by simp, hone, ?_, ?_, ?_, ?_⟩
      · rw [hcs, ← hfl]
        simp
      · exact ⟨ct :: cr, List.Forall₂.cons hb.advance htail, by simp⟩
      · simp [renderDRC, encodeStr_singleton]
      · intro bs hbs
        simp at hbs
      · intro ch hch
        injection hch with hch
        subst hch
        refine ⟨rfl, ?_⟩
        by_cases hct : is_trigger_byte c0
        · exact Or.inl hct
        · have hct' : is_trigger_byte c0 = false := by simp [hct]
          have hnt := encodeChar_no_trigger c0 (hs c0 (by simp)).lt_max hct'
          have hexp : data_span (encodeStr (c0 :: ct)) =
              (encodeChar c0).length + data_span (encodeStr ct) := by
            rw [encodeStr_cons]
            exact data_span_append_no_trigger _ _ hnt
          have hlen := encodeChar_length_pos c0
          refine Or.inr ⟨hct', b, r, hde, ?_⟩
          have hbr : b.rest = encodeStr (c0 :: ct) := hb.rest_eq
          rw [hbr]
          omega

theorem QWf_new : QWf BufferQueue.new [] := ⟨[], List.Forall₂.nil, rfl⟩

theorem QAcct_new : QAcct BufferQueue.new [] := ⟨QWf_new, rfl⟩

theorem BufAbs_new (ds : List Nat) (hds : ∀ c ∈ ds, IsScalar c) :
    BufAbs (Buffer.new (encodeStr ds)) ds :=
  ⟨[], by simp, hds, by simp [Buffer.new, encodeStr_nil], rfl⟩

/-- `push_back` appends the pushed characters to the character-level view. -/
theorem push_back_wf {q : BufferQueue} {cs : List Nat} (h : QWf q cs)
    (ds : List Nat) (hds : ∀ c ∈ ds, IsScalar c) :
    QWf (q.push_back (encodeStr ds)) (cs ++ ds) := by
  obtain ⟨css, hf, hcs⟩ := h
  refine ⟨css ++ [ds], ?_, ?_⟩
  · exact List.rel_append hf
      (List.Forall₂.cons (BufAbs_new ds hds) List.Forall₂.nil)
  · rw [hcs]
    simp

/-- `push_front` prepends the pushed characters to the character-level view. -/
theorem push_front_wf {q : BufferQueue} {cs : List Nat} (h : QWf q cs)
    (ds : List Nat) (hds : ∀ c ∈ ds, IsScalar c) :
    QWf (q.push_front (encodeStr ds)) (ds ++ cs) := by
  obtain ⟨css, hf, hcs⟩ := h
  refine ⟨ds :: css, List.Forall₂.cons (BufAbs_new ds hds) hf, ?_⟩
  rw [hcs]
  simp

theorem push_back_acct {q : BufferQueue} {cs : List Nat} (h : QAcct q cs)
    (ds : List Nat) (hds : ∀ c ∈ ds, IsScalar c) :
    QAcct (q.push_back (encodeStr ds)) (cs ++ ds) := by
  refine ⟨push_back_wf h.1 ds hds, ?_⟩
  show q.available + char_len (encodeStr ds) = (cs ++ ds).length
  rw [h.2, char_len_encodeStr ds (fun c hc => (hds c hc)), List.length_append]

theorem push_front_acct {q : BufferQueue} {cs : List Nat} (h : QAcct q cs)
    (ds : List Nat) (hds : ∀ c ∈ ds, IsScalar c) :
    QAcct (q.push_front (encodeStr ds)) (ds ++ cs) := by
  refine ⟨push_front_wf h.1 ds hds, ?_⟩
  show q.available + char_len (encodeStr ds) = (ds ++ cs).length
  rw [h.2, char_len_encodeStr ds (fun c hc => (hds c hc)), List.length_append]
  omega

theorem QAcct_single (ds : List Nat) (hds : ∀ c ∈ ds, IsScalar c) :
    QAcct (BufferQueue.new.push_back (encodeStr ds)) ds := by
  have h := push_back_acct QAcct_new ds hds
  simpa using h

/-- With intact accounting, collecting `n ≤ |cs|` characters via `next`
yields exactly the first `n` characters and keeps the accounting intact. -/
theorem collect_acct : ∀ (n : Nat) {q : BufferQueue} {cs : List Nat},
    QAcct q cs → n ≤ cs.length →
    ∃ q1, collect_take n q = some (cs.take n, q1) ∧ QAcct q1 (cs.drop n) ∧
      q1.available = q.available - n := by
  intro n
  induction n with
  | zero =>
    intro q cs h _
    exact ⟨q, rfl, by simpa using h, by simp⟩
  | succ n ih =>
    intro q cs h hle
    obtain ⟨hwf, hav⟩ := h
    rcases next_lemma hwf with ⟨hnil, _⟩ | ⟨c, cr, q1, hcs, hnext, hwf1, hav1⟩
    · subst hnil
      simp at hle
    · subst hcs
      have hacct1 : QAcct q1 cr := by
        refine ⟨hwf1, ?_⟩
        rw [hav1, hav]
        simp
      obtain ⟨q2, hcol, hacct2, hav2⟩ := ih hacct1 (by simpa using hle)
      refine ⟨q2, ?_, by simpa using hacct2, ?_⟩
      · simp [collect_take, hnext, hcol]
      · rw [hav2, hav1]
        omega

/-- Without any accounting hypothesis, collecting still succeeds (possibly
short) and leaves a well-formed queue. -/
theorem collect_wf : ∀ (n : Nat) {q : BufferQueue} {cs : List Nat},
    QWf q cs → ∃ out q1 cs1, collect_take n q = some (out, q1) ∧ QWf q1 cs1 := by
  intro n
  induction n with
  | zero =>
    intro q cs h
    exact ⟨[], q, cs, rfl, h⟩
  | succ n ih =>
    intro q cs h
    rcases next_lemma h with ⟨_, hnext⟩ | ⟨c, cr, q1, _, hnext, hwf1, _⟩
    · exact ⟨[], ⟨[], q.available⟩, [], by simp [collect_take, hnext],
        ⟨[], List.Forall₂.nil, rfl⟩⟩
    · obtain ⟨out, q2, cs2, hcol, hwf2⟩ := ih hwf1
      exact ⟨c :: out, q2, cs2, by simp [collect_take, hnext, hcol], hwf2⟩

theorem pop_front_wf {q : BufferQueue} {cs : List Nat} (h : QWf q cs)
    (n : Nat) :
    ∃ res q1 cs1, q.pop_front n = some (res, q1) ∧ QWf q1 cs1 := by
  by_cases hhas : q.has n
  · obtain ⟨out, q1, cs1, hcol, hwf1⟩ := collect_wf n h
    exact ⟨some out, q1, cs1, by simp [BufferQueue.pop_front, hhas, hcol], hwf1⟩
  · exact ⟨none, q, cs, by simp [BufferQueue.pop_front, hhas], h⟩

theorem drain_next_spec : ∀ (fuel : Nat) {q : BufferQueue} {cs : List Nat},
    QWf q cs → cs.length ≤ fuel → drain_next fuel q = some cs := by
  intro fuel
  induction fuel with
  | zero =>
    intro q cs h hle
    have hnil : cs = [] := List.eq_nil_of_length_eq_zero (by omega)
    subst hnil
    rcases next_lemma h with ⟨_, hnext⟩ | ⟨c, cr, q1, hcs, _, _, _⟩
    · simp [drain_next, hnext]
    · simp at hcs
  | succ fuel ih =>
    intro q cs h hle
    rcases next_lemma h with ⟨hnil, hnext⟩ | ⟨c, cr, q1, hcs, hnext, hwf1, _⟩
    · subst hnil
      simp [drain_next, hnext]
    · subst hcs
      have hcol := ih hwf1 (by simp at hle; omega)
      simp [drain_next, hnext, hcol]

theorem drain_pop_data_spec : ∀ (fuel : Nat) {q : BufferQueue} {cs : List Nat},
    QWf q cs → cs.length ≤ fuel →
    ∃ outs, drain_pop_data fuel q = some outs ∧
      (outs.map renderDRC).flatten = encodeStr cs ∧
      ∀ out ∈ outs, ∀ bs, out = DataRunOrChar.DataRun bs →
        ∀ x ∈ bs, is_trigger_byte x = false := by
  intro fuel
  induction fuel with
  | zero =>
    intro q cs h hle
    have hnil : cs = [] := List.eq_nil_of_length_eq_zero (by omega)
    subst hnil
    rcases pop_data_lemma h with ⟨_, hpd⟩ |
      ⟨ds, es, out, q1, hcs, hdne, _, _, _, _, _⟩
    · exact ⟨[], by simp [drain_pop_data, hpd], by simp [encodeStr], by simp⟩
    · exact absurd (List.append_eq_nil.mp hcs.symm).1 hdne
  | succ fuel ih =>
    intro q cs h hle
    rcases pop_data_lemma h with ⟨hnil, hpd⟩ |
      ⟨ds, es, out, q1, hcs, hdne, hpd, hwf1, hrender, hruns, _⟩
    · subst hnil
      exact ⟨[], by simp [drain_pop_data, hpd], by simp [encodeStr], by simp⟩
    · have hdpos : 0 < ds.length := List.length_pos.mpr hdne
      have hes : es.length ≤ fuel := by
        rw [hcs] at hle
        rw [List.length_append] at hle
        omega
      obtain ⟨outs1, hdr1, hfl1, hnt1⟩ := ih hwf1 hes
      refine ⟨out :: outs1, ?_, ?_, ?_⟩
      · simp [drain_pop_data, hpd, hdr1]
      · rw [List.map_cons, List.flatten_cons, hfl1, hrender, hcs,
          encodeStr_append]
      · intro o ho bs hbs
        rcases List.mem_cons.mp ho with ho | ho
        · subst ho
          exact hruns bs hbs
        · exact hnt1 o ho bs hbs

/-- Claim C4: for every byte slice `s`, `data_span s` is the number of
leading bytes of `s` before the first occurrence of any of the five trigger
bytes, i.e. the length of the longest trigger-free prefix — the full length
of `s` when no trigger byte occurs. -/
theorem data_span_spec (s : List Nat) :
    data_span s = (s.takeWhile (fun b => ! is_trigger_byte b)).length := by
  induction s with
  | nil => rfl
  | cons b bs ih =>
    by_cases hb : is_trigger_byte b
    · simp [data_span, List.takeWhile_cons, hb]
    · simp [data_span, List.takeWhile_cons, hb, ih, Nat.add_comm]

/-- Claim C1 (code bug): pushing the three-character chunk "é!\u0000"
(UTF-8 bytes C3 A9 21 00) and then calling `pop_data` returns the run "é!"
— two characters but three bytes — and decrements `available` by the byte
count 3, leaving `available = 0` while one character (the NUL) is still
unconsumed, so `has 1` wrongly answers false.  This contradicts the
invariant that `available` equals the number of remaining characters (and
the source's own doc comment on the field). -/
theorem available_accounting_bug :
    (BufferQueue.new.push_back (encodeStr [233, 33, 0])).available = 3 ∧
    (BufferQueue.new.push_back (encodeStr [233, 33, 0])).pop_data =
      some (some (DataRunOrChar.DataRun [195, 169, 33]),
        ⟨[⟨3, [195, 169, 33, 0]⟩], 0⟩) ∧
    char_len (BufferQueue.restBytes ⟨[⟨3, [195, 169, 33, 0]⟩], 0⟩) = 1 ∧
    BufferQueue.has ⟨[⟨3, [195, 169, 33, 0]⟩], 0⟩ 1 = false := by
  decide

/-- Claim C2 (counterexample): `pop_data` on a queue holding just "a"
returns `OneChar 'a'`, and 'a' is not one of the five trigger characters —
refuting the claim that every `OneChar` result is a trigger character. -/
theorem pop_data_onechar_cex :
    (BufferQueue.new.push_back (encodeStr [97])).pop_data =
      some (some (DataRunOrChar.OneChar 97), ⟨[⟨1, [97]⟩], 0⟩) ∧
    is_trigger_byte 97 = false := by
  decide

/-- Claim C2 (amended): whenever `pop_data` returns `OneChar c` on a
well-formed queue, either `c` is one of the five trigger characters, or `c`
is a non-trigger character whose maximal data run at the front of the
current chunk is exactly one byte long (the source deliberately returns the
single-character variant for one-byte runs to avoid an allocation). -/
theorem pop_data_onechar_amended {q : BufferQueue} {cs : List Nat} {c : Nat}
    {q1 : BufferQueue} (h : QWf q cs)
    (he : q.pop_data = some (some (DataRunOrChar.OneChar c), q1)) :
    is_trigger_byte c = true ∨
      (is_trigger_byte c = false ∧
        ∃ b r, drop_empty_buffers q.buffers = b :: r ∧ data_span b.rest = 1) := by
  rcases pop_data_lemma h with ⟨_, hpd⟩ |
    ⟨ds, es, out, q2, _, _, hpd, _, _, _, hchar⟩
  · rw [hpd] at he
    simp at he
  · rw [hpd] at he
    simp only [Option.some.injEq, Prod.mk.injEq] at he
    obtain ⟨he1, _⟩ := he
    rcases (hchar c he1).2 with ht | ⟨hf, b1, r1, hdr, hspan1⟩
    · exact Or.inl ht
    · exact Or.inr ⟨hf, b1, r1, hdr, hspan1⟩

theorem pop_data_onechar_amended_witness :
    is_trigger_byte 0 = true ∨
      (is_trigger_byte 0 = false ∧
        ∃ b r, drop_empty_buffers
            (BufferQueue.new.push_back (encodeStr [0])).buffers = b :: r ∧
          data_span b.rest = 1) :=
  pop_data_onechar_amended (QAcct_single [0] (by decide)).1
    (show (BufferQueue.new.push_back (encodeStr [0])).pop_data =
        some (some (DataRunOrChar.OneChar 0), ⟨[⟨1, [0]⟩], 0⟩) by decide)

/-- Claim C3: on a well-formed queue, repeatedly calling `pop_data` until it
reports empty succeeds, the concatenation of the returned pieces (run bytes,
and the encoding of each single character) is exactly the remaining
unconsumed bytes of the queue, and every returned data run is free of the
five trigger bytes. -/
theorem pop_data_drain_correct {q : BufferQueue} {cs : List Nat}
    (h : QWf q cs) :
    ∃ outs, drain_pop_data cs.length q = some outs ∧
      (outs.map renderDRC).flatten = q.restBytes ∧
      ∀ out ∈ outs, ∀ bs, out = DataRunOrChar.DataRun bs →
        ∀ x ∈ bs, is_trigger_byte x = false := by
  obtain ⟨outs, h1, h2, h3⟩ := drain_pop_data_spec cs.length h le_rfl
  exact ⟨outs, h1, by rw [h2, h.restBytes_eq], h3⟩

theorem pop_data_drain_correct_witness :
    ∃ outs, drain_pop_data ([97, 0, 98] : List Nat).length
        (BufferQueue.new.push_back (encodeStr [97, 0, 98])) = some outs ∧
      (outs.map renderDRC).flatten =
        (BufferQueue.new.push_back (encodeStr [97, 0, 98])).restBytes ∧
      ∀ out ∈ outs, ∀ bs, out = DataRunOrChar.DataRun bs →
        ∀ x ∈ bs, is_trigger_byte x = false :=
  pop_data_drain_correct (QAcct_single [97, 0, 98] (by decide)).1

/-- Claim C5 (code bug): after pushing "éa" and "b" and extracting the run
"éa" with `pop_data`, one character ('b') remains, but `available` was
over-decremented to 0 (by the run's byte length 3 rather than its character
count 2), so `pop_front 1` returns `none` even though one character is
available — refuting the claim that `pop_front n` succeeds whenever `n`
characters remain. -/
theorem pop_front_allornothing_bug :
    ((BufferQueue.new.push_back (encodeStr [233, 97])).push_back
        (encodeStr [98])).pop_data =
      some (some (DataRunOrChar.DataRun [195, 169, 97]),
        ⟨[⟨3, [195, 169, 97]⟩, ⟨0, [98]⟩], 0⟩) ∧
    char_len (BufferQueue.restBytes ⟨[⟨3, [195, 169, 97]⟩, ⟨0, [98]⟩], 0⟩) = 1 ∧
    BufferQueue.pop_front ⟨[⟨3, [195, 169, 97]⟩, ⟨0, [98]⟩], 0⟩ 1 =
      some (none, ⟨[⟨3, [195, 169, 97]⟩, ⟨0, [98]⟩], 0⟩) := by
  decide

/-- Claim C6: on a well-formed queue, draining by repeated `next` calls
yields exactly the remaining characters in order, and pushing a chunk at the
back appends its characters after all queued text while pushing a chunk at
the front prepends its characters before all queued text. -/
theorem next_order_preservation {q : BufferQueue} {cs : List Nat}
    (h : QWf q cs) :
    drain_next cs.length q = some cs ∧
    ∀ ds, (∀ c ∈ ds, IsScalar c) →
      QWf (q.push_back (encodeStr ds)) (cs ++ ds) ∧
      QWf (q.push_front (encodeStr ds)) (ds ++ cs) :=
  ⟨drain_next_spec cs.length h le_rfl,
    fun ds hds => ⟨push_back_wf h ds hds, push_front_wf h ds hds⟩⟩

theorem next_order_preservation_witness :
    drain_next ([104, 105] : List Nat).length
      (BufferQueue.new.push_back (encodeStr [104, 105])) = some [104, 105] ∧
    QWf ((BufferQueue.new.push_back (encodeStr [104, 105])).push_front
      (encodeStr [33])) ([33] ++ [104, 105]) :=
  ⟨(next_order_preservation (QAcct_single [104, 105] (by decide)).1).1,
    ((next_order_preservation (QAcct_single [104, 105] (by decide)).1).2
      [33] (by decide)).2⟩

/-- When at least `k` characters remain on a well-formed queue — whatever
the `available` counter says — collecting `k` characters via `next` yields
exactly the first `k` characters, leaves a well-formed queue over the rest,
and lowers the counter by `k`. -/
theorem collect_exact : ∀ (k : Nat) {q : BufferQueue} {cs : List Nat},
    QWf q cs → k ≤ cs.length →
    ∃ q1, collect_take k q = some (cs.take k, q1) ∧ QWf q1 (cs.drop k) ∧
      q1.available = q.available - k := by
  intro k
  induction k with
  | zero =>
    intro q cs h _
    exact ⟨q, rfl, by simpa using h, by simp⟩
  | succ k ih =>
    intro q cs h hle
    rcases next_lemma h with ⟨hnil, _⟩ | ⟨c, cr, q1, hcs, hnext, hwf1, hav1⟩
    · subst hnil
      simp at hle
    · subst hcs
      obtain ⟨q2, hcol, hwf2, hav2⟩ := ih hwf1 (by simpa using hle)
      refine ⟨q2, ?_, by simpa using hwf2, ?_⟩
      · simp [collect_take, hnext, hcol]
      · rw [hav2, hav1]
        omega

/-- Claim C7: from any well-formed (reachable) queue state holding `cs` —
the `available` counter may or may not be intact — consuming `k ≤ |cs|`
characters via `next` yields `s = cs.take k`; pushing `s` back with
`push_front` and consuming `k` characters again yields exactly `s` and
leaves a queue observably equal to the one before the push-front /
re-consume round-trip: same remaining characters, equal `available`, and
identical answers from `has`. -/
theorem unconsume_roundtrip {q : BufferQueue} {cs : List Nat} {k : Nat}
    (h : QWf q cs) (hk : k ≤ cs.length) :
    ∃ q1 q2, collect_take k q = some (cs.take k, q1) ∧
      collect_take k (q1.push_front (encodeStr (cs.take k))) =
        some (cs.take k, q2) ∧
      QWf q1 (cs.drop k) ∧ QWf q2 (cs.drop k) ∧
      q2.available = q1.available ∧
      ∀ n, BufferQueue.has q2 n = BufferQueue.has q1 n := by
  obtain ⟨q1, hcol1, hwf1, hav1⟩ := collect_exact k h hk
  have hscal : ∀ c ∈ cs.take k, IsScalar c := fun c hc =>
    h.mem_scalar c (List.take_subset k cs hc)
  have hpush : QWf (q1.push_front (encodeStr (cs.take k)))
      (cs.take k ++ cs.drop k) :=
    push_front_wf hwf1 (cs.take k) hscal
  rw [List.take_append_drop] at hpush
  obtain ⟨q2, hcol2, hwf2, hav2⟩ := collect_exact k hpush hk
  have hq1' : (q1.push_front (encodeStr (cs.take k))).available =
      q1.available + k := by
    show q1.available + char_len (encodeStr (cs.take k)) = q1.available + k
    rw [char_len_encodeStr _ hscal, List.length_take]
    omega
  have haveq : q2.available = q1.available := by
    rw [hav2, hq1']
    omega
  refine ⟨q1, q2, hcol1, hcol2, hwf1, hwf2, haveq, ?_⟩
  intro n
  unfold BufferQueue.has
  rw [haveq]

theorem unconsume_roundtrip_witness :
    ∃ q1 q2,
      collect_take 2 (BufferQueue.new.push_back (encodeStr [97, 98, 99])) =
        some (([97, 98, 99] : List Nat).take 2, q1) ∧
      collect_take 2 (q1.push_front (encodeStr (([97, 98, 99] : List Nat).take 2))) =
        some (([97, 98, 99] : List Nat).take 2, q2) ∧
      QWf q1 (([97, 98, 99] : List Nat).drop 2) ∧
      QWf q2 (([97, 98, 99] : List Nat).drop 2) ∧
      q2.available = q1.available ∧
      ∀ n, BufferQueue.has q2 n = BufferQueue.has q1 n :=
  unconsume_roundtrip (QAcct_single [97, 98, 99] (by decide)).1 (by decide)

/-- Claim C8: exhaustion is transient — from any state in which `next`
reports empty, pushing a nonempty valid chunk at the back and calling
`next` again yields the first character of that chunk. -/
theorem transient_exhaustion {q q0 : BufferQueue} {d : Nat} {ds : List Nat}
    (hnext : q.next = some (none, q0)) (hd : IsScalar d) :
    ∃ q1, (q0.push_back (encodeStr (d :: ds))).next = some (some d, q1) := by
  have h0 : q0.buffers = [] := by
    unfold BufferQueue.next at hnext
    cases hde : drop_empty_buffers q.buffers with
    | nil =>
      rw [hde] at hnext
      simp only [Option.some.injEq, Prod.mk.injEq] at hnext
      rw [← hnext.2]
    | cons b r =>
      rw [hde] at hnext
      cases hcr : char_range_at b.buf b.pos with
      | none =>
        simp [hcr] at hnext
      | some p =>
        obtain ⟨ch, nxt⟩ := p
        simp [hcr] at hnext
  have hbuffers : (q0.push_back (encodeStr (d :: ds))).buffers =
      [⟨0, encodeStr (d :: ds)⟩] := by
    show q0.buffers ++ [Buffer.new (encodeStr (d :: ds))] = _
    rw [h0]
    rfl
  have hne : encodeStr (d :: ds) ≠ [] := by
    rw [encodeStr_cons]
    simp [encodeChar_ne_nil]
  have hlen : ¬ ((encodeStr (d :: ds)).length ≤ 0) := by
    have := List.length_pos.mpr hne
    omega
  have hcr0 : char_range_at (encodeStr (d :: ds)) 0 =
      some (d, 0 + (encodeChar d).length) := by
    unfold char_range_at
    rw [List.drop_zero, encodeStr_cons, decodeChar_encodeChar d hd.lt_max]
  refine ⟨⟨[⟨0 + (encodeChar d).length, encodeStr (d :: ds)⟩],
    (q0.push_back (encodeStr (d :: ds))).available - 1⟩, ?_⟩
  unfold BufferQueue.next
  rw [hbuffers]
  simp only [drop_empty_buffers]
  rw [if_neg hlen]
  simp only [hcr0]

theorem transient_exhaustion_witness :
    ∃ q1, ((⟨[], 0⟩ : BufferQueue).push_back (encodeStr [104, 105])).next =
      some (some 104, q1) :=
  transient_exhaustion
    (show BufferQueue.new.next = some (none, ⟨[], 0⟩) by decide)
    (show IsScalar 104 by decide)

theorem BufAbs.pos_boundary {b : Buffer} {cs : List Nat} (h : BufAbs b cs) :
    PosOnBoundary b := by
  obtain ⟨cs0, hs0, hs, hbuf, hpos⟩ := h
  exact ⟨cs0, cs, hs0, hs, hbuf, hpos⟩

theorem forall₂_boundary : ∀ {bufs : List Buffer} {css : List (List Nat)},
    List.Forall₂ BufAbs bufs css → ∀ b ∈ bufs, PosOnBoundary b := by
  intro bufs css h
  induction h with
  | nil => simp
  | cons hb _ ih =>
    intro x hx
    rcases List.mem_cons.mp hx with hx | hx
    · subst hx
      exact hb.pos_boundary
    · exact ih x hx

theorem QWf.all_boundary {q : BufferQueue} {cs : List Nat} (h : QWf q cs) :
    ∀ b ∈ q.buffers, PosOnBoundary b := by
  obtain ⟨css, hf, _⟩ := h
  exact forall₂_boundary hf

/-- Claim C9: on a well-formed queue every chunk's cursor lies on a UTF-8
code-point boundary, and each of `next`, `peek`, `pop_data` and `pop_front`
leaves every chunk's cursor on a code-point boundary — in particular the
byte advance `pos + data_span` performed by `pop_data`, which is sound
because none of the five ASCII trigger bytes can occur inside a multi-byte
encoding. -/
theorem utf8_boundary_preservation {q : BufferQueue} {cs : List Nat}
    (h : QWf q cs) :
    (∀ b ∈ q.buffers, PosOnBoundary b) ∧
    (∀ r q1, q.next = some (r, q1) → ∀ b ∈ q1.buffers, PosOnBoundary b) ∧
    (∀ r q1, q.peek = some (r, q1) → ∀ b ∈ q1.buffers, PosOnBoundary b) ∧
    (∀ r q1, q.pop_data = some (r, q1) → ∀ b ∈ q1.buffers, PosOnBoundary b) ∧
    (∀ n r q1, q.pop_front n = some (r, q1) →
      ∀ b ∈ q1.buffers, PosOnBoundary b) := by
  refine ⟨h.all_boundary, ?_, ?_, ?_, ?_⟩
  · intro r q1 he
    rcases next_lemma h with ⟨_, hnext⟩ | ⟨c, cr, q2, _, hnext, hwf2, _⟩
    · rw [hnext] at he
      simp only [Option.some.injEq, Prod.mk.injEq] at he
      rw [← he.2]
      simp
    · rw [hnext] at he
      simp only [Option.some.injEq, Prod.mk.injEq] at he
      rw [← he.2]
      exact hwf2.all_boundary
  · intro r q1 he
    rcases peek_lemma h with ⟨_, hpeek⟩ | ⟨c, cr, q2, _, hpeek, hwf2, _⟩
    · rw [hpeek] at he
      simp only [Option.some.injEq, Prod.mk.injEq] at he
      rw [← he.2]
      simp
    · rw [hpeek] at he
      simp only [Option.some.injEq, Prod.mk.injEq] at he
      rw [← he.2]
      exact hwf2.all_boundary
  · intro r q1 he
    rcases pop_data_lemma h with ⟨_, hpd⟩ |
      ⟨ds, es, out, q2, _, _, hpd, hwf2, _, _, _⟩
    · rw [hpd] at he
      simp only [Option.some.injEq, Prod.mk.injEq] at he
      rw [← he.2]
      simp
    · rw [hpd] at he
      simp only [Option.some.injEq, Prod.mk.injEq] at he
      rw [← he.2]
      exact hwf2.all_boundary
  · intro n r q1 he
    obtain ⟨res, q2, cs2, hpf, hwf2⟩ := pop_front_wf h n
    rw [hpf] at he
    simp only [Option.some.injEq, Prod.mk.injEq] at he
    rw [← he.2]
    exact hwf2.all_boundary

theorem utf8_boundary_preservation_witness :
    (∀ b ∈ (BufferQueue.new.push_back (encodeStr [233, 97])).buffers,
      PosOnBoundary b) ∧
    (∀ r q1, (BufferQueue.new.push_back (encodeStr [233, 97])).next =
        some (r, q1) → ∀ b ∈ q1.buffers, PosOnBoundary b) ∧
    (∀ r q1, (BufferQueue.new.push_back (encodeStr [233, 97])).peek =
        some (r, q1) → ∀ b ∈ q1.buffers, PosOnBoundary b) ∧
    (∀ r q1, (BufferQueue.new.push_back (encodeStr [233, 97])).pop_data =
        some (r, q1) → ∀ b ∈ q1.buffers, PosOnBoundary b) ∧
    (∀ n r q1, (BufferQueue.new.push_back (encodeStr [233, 97])).pop_front n =
        some (r, q1) → ∀ b ∈ q1.buffers, PosOnBoundary b) :=
  utf8_boundary_preservation (QAcct_single [233, 97] (by decide)).1

/-- Claim C10: on a well-formed queue, after pruning, the front chunk (if
any) has its cursor strictly inside its buffer, so the decode performed by
`peek`, `next` and `pop_data` is in bounds (the panic branch, modelled as
the outer `none`, is unreachable), and each of these operations reports
empty exactly when no unconsumed bytes remain in any chunk. -/
theorem read_ops_safety {q : BufferQueue} {cs : List Nat} (h : QWf q cs) :
    (∀ b r, drop_empty_buffers q.buffers = b :: r → b.pos < b.buf.length) ∧
    q.peek ≠ none ∧ q.next ≠ none ∧ q.pop_data ≠ none ∧
    ((∃ q1, q.peek = some (none, q1)) ↔ q.restBytes = []) ∧
    ((∃ q1, q.next = some (none, q1)) ↔ q.restBytes = []) ∧
    ((∃ q1, q.pop_data = some (none, q1)) ↔ q.restBytes = []) := by
  have hre : q.restBytes = [] ↔ cs = [] := by
    rw [h.restBytes_eq]
    exact encodeStr_eq_nil_iff cs
  refine ⟨?_, ?_, ?_, ?_, ?_, ?_, ?_⟩
  · intro b r hbr
    obtain ⟨css, hf, _⟩ := h
    rcases drop_empty_abs hf with ⟨hde, _⟩ | ⟨b1, r1, c, cr, hde, hcne, hf2, _⟩
    · rw [hde] at hbr
      exact absurd hbr (by simp)
    · rw [hde] at hbr
      injection hbr with hb1 _
      rw [← hb1]
      have hb : BufAbs b1 c := by
        cases hf2
        assumption
      have hni : ¬ (b1.buf.length ≤ b1.pos) := fun hle =>
        hcne (hb.exhausted_iff.mp hle)
      omega
  · rcases peek_lemma h with ⟨_, hpeek⟩ | ⟨c, cr, q2, _, hpeek, _, _⟩ <;>
      simp [hpeek]
  · rcases next_lemma h with ⟨_, hnext⟩ | ⟨c, cr, q2, _, hnext, _, _⟩ <;>
      simp [hnext]
  · rcases pop_data_lemma h with ⟨_, hpd⟩ |
      ⟨ds, es, out, q2, _, _, hpd, _, _, _, _⟩ <;> simp [hpd]
  · rw [hre]
    rcases peek_lemma h with ⟨hnil, hpeek⟩ | ⟨c, cr, q2, hcs, hpeek, _, _⟩
    · simp [hpeek, hnil]
    · rw [hcs]
      simp [hpeek]
  · rw [hre]
    rcases next_lemma h with ⟨hnil, hnext⟩ | ⟨c, cr, q2, hcs, hnext, _, _⟩
    · simp [hnext, hnil]
    · rw [hcs]
      simp [hnext]
  · rw [hre]
    rcases pop_data_lemma h with ⟨hnil, hpd⟩ |
      ⟨ds, es, out, q2, hcs, hdne, hpd, _, _, _, _⟩
    · simp [hpd, hnil]
    · rw [hcs]
      simp [hpd]
      intro habs
      exact absurd habs hdne

theorem read_ops_safety_witness :
    (∀ b r, drop_empty_buffers
        (BufferQueue.new.push_back (encodeStr [233, 97])).buffers = b :: r →
      b.pos < b.buf.length) ∧
    (BufferQueue.new.push_back (encodeStr [233, 97])).peek ≠ none ∧
    (BufferQueue.new.push_back (encodeStr [233, 97])).next ≠ none ∧
    (BufferQueue.new.push_back (encodeStr [233, 97])).pop_data ≠ none ∧
    ((∃ q1, (BufferQueue.new.push_back (encodeStr [233, 97])).peek =
        some (none, q1)) ↔
      (BufferQueue.new.push_back (encodeStr [233, 97])).restBytes = []) ∧
    ((∃ q1, (BufferQueue.new.push_back (encodeStr [233, 97])).next =
        some (none, q1)) ↔
      (BufferQueue.new.push_back (encodeStr [233, 97])).restBytes = []) ∧
    ((∃ q1, (BufferQueue.new.push_back (encodeStr [233, 97])).pop_data =
        some (none, q1)) ↔
      (BufferQueue.new.push_back (encodeStr [233, 97])).restBytes = []) :=
  read_ops_safety (QAcct_single [233, 97] (by decide)).1
